import Mathlib

/-!
Shallow embedding of `pytorch_balanced_sampler/sampler.py`.

Numeric conventions: Python/NumPy floats are modelled as rationals (`ℚ`);
`np.round` is round-half-to-even (banker's rounding); NumPy integer arrays are
lists of `ℤ`; sample indices are `ℕ`.  Python's `%` on integers agrees with
`Int.emod` for a positive modulus.  The NumPy random source used for shuffling
is abstracted as an injected permutation function on lists.
-/

namespace PBSampler

/-- Model of `np.round` on a rational: round half to even (banker's rounding),
as NumPy does, followed by `astype(int)` (the value is already integral). -/
def npRound (q : ℚ) : ℤ :=
  let f := ⌊q⌋
  let r := q - (f : ℚ)
  if r < 1/2 then f
  else if 1/2 < r then f + 1
  else if f % 2 = 0 then f else f + 1

/-- Helper for `argmax`: scans the tail, remembering the index and value of the
current best; a new element replaces the best only when strictly larger, so the
first occurrence of the maximum wins, as in `np.argmax`. -/
def argmaxAux : List ℤ → ℕ → ℕ → ℤ → ℕ
  | [], _, best, _ => best
  | x :: xs, i, best, bestv =>
      if bestv < x then argmaxAux xs (i + 1) i x
      else argmaxAux xs (i + 1) best bestv

/-- Model of `np.argmax`: index of the first occurrence of the maximum
(`np.argmax` on an empty array raises; we return 0, unused by the claims). -/
def argmax : List ℤ → ℕ
  | [] => 0
  | x :: xs => argmaxAux xs 1 0 x

/-- Model of `SamplerFactory._balance_weights`: `alpha * weight_a + (1 - alpha) * weight_b`
componentwise (the Python code broadcasts over NumPy arrays of equal length). -/
def balanceWeights (weight_a weight_b : List ℚ) (alpha : ℚ) : List ℚ :=
  (weight_a.zip weight_b).map (fun p => alpha * p.1 + (1 - alpha) * p.2)

/-- Model of `SamplerFactory._weight_classes`: class sizes are the lengths of the
per-class index lists; natural weights are `size / n_samples`; uniform weights
are `1 / n_classes`; the result blends them via `_balance_weights`. -/
def weightClasses (class_idxs : List (List ℕ)) (alpha : ℚ) : List ℚ :=
  let class_sizes := class_idxs.map List.length
  let n_samples : ℕ := class_sizes.sum
  let n_classes : ℕ := class_idxs.length
  let original_weights := class_sizes.map (fun (s : ℕ) => (s : ℚ) / (n_samples : ℚ))
  let uniform_weights := List.replicate n_classes ((1 : ℚ) / (n_classes : ℚ))
  balanceWeights uniform_weights original_weights alpha

/-- Model of `SamplerFactory._fix_batches` (the fixed-quota planner):
round `weights * batch_size` to integers, then add the whole remainder
`batch_size - sum` to the first class with the largest rounded value. -/
def fixBatches (weights : List ℚ) (batch_size : ℕ) : List ℤ :=
  let class_samples_per_batch := weights.map (fun w => npRound (w * (batch_size : ℚ)))
  let remainder : ℤ := (batch_size : ℤ) - class_samples_per_batch.sum
  let largest_class := argmax class_samples_per_batch
  class_samples_per_batch.set largest_class
    (class_samples_per_batch.getD largest_class 0 + remainder)

/-- Model of `CircularList.__getitem__` with an integer key:
`self._items[key % self._mod]`.  Python's `%` with a positive modulus agrees
with `Int.emod`; an out-of-range lookup (impossible for a non-empty pool)
falls back to `getD`'s default. -/
def circGet (items : List ℕ) (key : ℤ) : ℕ :=
  items.getD ((key % (items.length : ℤ)).toNat) 0

/-- Model of Python's `range(a, b)` over integers: `a, a+1, ..., b-1`
(empty when `b ≤ a`). -/
def intRange (a b : ℤ) : List ℤ :=
  (List.range (b - a).toNat).map (fun (k : ℕ) => a + (k : ℤ))

/-- Model of `CircularList.__getitem__` with a slice key:
`[self[i] for i in range(key.start, key.stop)]`. -/
def circSlice (items : List ℕ) (start stop : ℤ) : List ℕ :=
  (intRange start stop).map (fun i => circGet items i)

/-- Helper for Python slice semantics: normalize one slice endpoint against a
list of length `n` (negative endpoints count from the end; both ends are
clamped to `[0, n]`). -/
def pySliceIdx (n : ℕ) (i : ℤ) : ℕ :=
  if i < 0 then (i + (n : ℤ)).toNat else min i.toNat n

/-- Model of Python list slicing `xs[a:b]`: truncates silently at the list
bounds instead of raising (used by `_get_batch` when `circular_list=False`). -/
def pySlice (xs : List ℕ) (a b : ℤ) : List ℕ :=
  let a' := pySliceIdx xs.length a
  let b' := pySliceIdx xs.length b
  (xs.drop a').take (b' - a')

/-- Model of one per-class read in `WeightedFixedBatchSampler._get_batch`:
`self.class_idxs[c][start : start + size]`, which is a wrapped `CircularList`
slice when `circular_list=True` and a plain Python list slice otherwise. -/
def poolRead (circular : Bool) (pool : List ℕ) (start stop : ℤ) : List ℕ :=
  if circular then circSlice pool start stop else pySlice pool start stop

/-- Model of the `WeightedFixedBatchSampler` instance state.  `class_idxs`
holds the per-class pools; because `CircularList` stores the caller's list
without copying, these lists ARE the caller-supplied class partition (mutating
them in place mutates the caller's data).  The NumPy `RandomState` is
abstracted away: `shuffle` records only whether a random state was installed. -/
structure WeightedFixedBatchSampler where
  class_samples_per_batch : List ℤ
  class_idxs : List (List ℕ)
  n_batches : ℕ
  circular_list : Bool
  shuffle : Bool
deriving Repr, DecidableEq

namespace WeightedFixedBatchSampler

/-- Model of `WeightedFixedBatchSampler.batch_size`:
`self.class_samples_per_batch.sum()`. -/
def batch_size (s : WeightedFixedBatchSampler) : ℤ :=
  s.class_samples_per_batch.sum

/-- Model of `WeightedFixedBatchSampler.n_classes`:
`len(self.class_samples_per_batch)`. -/
def n_classes (s : WeightedFixedBatchSampler) : ℕ :=
  s.class_samples_per_batch.length

/-- Model of `WeightedFixedBatchSampler._get_batch(start_idxs)`: for each class
`c`, read `quota[c]` positions starting at `start_idxs[c]` from pool `c` and
concatenate in class order; when a random state is installed the batch is
shuffled in place, modelled by applying the injected permutation `perm`. -/
def getBatch (s : WeightedFixedBatchSampler) (perm : List ℕ → List ℕ)
    (start_idxs : List ℤ) : List ℕ :=
  let selected :=
    ((s.class_samples_per_batch.zip (s.class_idxs.zip start_idxs)).map
      (fun p => poolRead s.circular_list p.2.1 p.2.2 (p.2.2 + p.1))).flatten
  if s.shuffle then perm selected else selected

/-- Loop of `WeightedFixedBatchSampler.__iter__`: yield `_get_batch(start_idxs)`
then advance `start_idxs += class_samples_per_batch`, `n` times. -/
def iterLoop (s : WeightedFixedBatchSampler) (perm : List ℕ → List ℕ) :
    List ℤ → ℕ → List (List ℕ)
  | _, 0 => []
  | start_idxs, n + 1 =>
      getBatch s perm start_idxs ::
        iterLoop s perm (start_idxs.zipWith (· + ·) s.class_samples_per_batch) n

/-- Model of one full pass of `WeightedFixedBatchSampler.__iter__`: if a random
state is installed, first shuffle every class pool IN PLACE (the pools alias
the caller's lists, so this mutates the sampler state — and the caller's
partition); then produce `n_batches` batches starting from zero cursors.
Returns the batches together with the sampler state after the pass; `poolPerm`
and `batchPerm` abstract the permutations the NumPy random state produces. -/
def iterPass (s : WeightedFixedBatchSampler) (poolPerm batchPerm : List ℕ → List ℕ) :
    List (List ℕ) × WeightedFixedBatchSampler :=
  let s' := if s.shuffle then { s with class_idxs := s.class_idxs.map poolPerm } else s
  (iterLoop s' batchPerm (List.replicate s'.n_classes (0 : ℤ)) s'.n_batches, s')

/-- Model of `WeightedFixedBatchSampler.__len__`: returns `self.n_batches`. -/
def sampLen (s : WeightedFixedBatchSampler) : ℕ :=
  s.n_batches

/-- Cursor vector at the start of batch `b`: `b * quota[c]` per class (the
closed form of `start_idxs` after `b` increments by `class_samples_per_batch`). -/
def startAt (quota : List ℤ) (b : ℕ) : List ℤ :=
  quota.map (fun (x : ℤ) => (b : ℤ) * x)

/-- Runs a sequence of full iteration passes, threading the sampler state
(each pass may shuffle the pools in place); returns the final state. -/
def runPasses (s : WeightedFixedBatchSampler) :
    List ((List ℕ → List ℕ) × (List ℕ → List ℕ)) → WeightedFixedBatchSampler
  | [] => s
  | p :: ps => runPasses (iterPass s p.1 p.2).2 ps

end WeightedFixedBatchSampler

/-- Model of `SamplerFactory.fixed`: compute the blended weights, plan the
fixed quota, and build a `WeightedFixedBatchSampler` with the default
`circular_list=True` and `shuffle=False` (the factory never enables shuffle). -/
def factoryFixed (class_idxs : List (List ℕ)) (batch_size n_batches : ℕ)
    (alpha : ℚ) : WeightedFixedBatchSampler :=
  { class_samples_per_batch := fixBatches (weightClasses class_idxs alpha) batch_size
    class_idxs := class_idxs
    n_batches := n_batches
    circular_list := true
    shuffle := false }

/-- Model of the sampler constructed by `BalancedDataLoader.__init__`: every
class gets the same quota `int(np.round(batch_size / n_labels))`, and
`n_batches = ceil(len(labels) / sum(quota))`; `circular_list` defaults to
`True` and `shuffle` to `False`. -/
def balancedLoaderSampler (labels_idxs : List (List ℕ)) (batch_size : ℕ)
    (shuffle : Bool := false) : WeightedFixedBatchSampler :=
  let n_labels := labels_idxs.length
  let fill := npRound ((batch_size : ℚ) / (n_labels : ℚ))
  let class_samples_per_batch := List.replicate n_labels fill
  let n : ℕ := (labels_idxs.map List.length).sum
  let s : ℕ := (class_samples_per_batch.sum).toNat
  { class_samples_per_batch := class_samples_per_batch
    class_idxs := labels_idxs
    n_batches := (n + s - 1) / s
    circular_list := true
    shuffle := shuffle }

/-! Helper lemmas about lists, `argmax` and `npRound`. -/

theorem getD_set_ne {α : Type} (l : List α) (i j : ℕ) (a d : α) (hij : i ≠ j) :
    (l.set i a).getD j d = l.getD j d := by
  induction l generalizing i j with
  | nil => simp [List.set]
  | cons x xs ih =>
      cases i with
      | zero =>
          cases j with
          | zero => exact absurd rfl hij
          | succ j => simp [List.set, List.getD]
      | succ i =>
          cases j with
          | zero => simp [List.set, List.getD]
          | succ j =>
              simp only [List.set, List.getD_cons_succ]
              exact ih i j (fun h => hij (by simp [h]))

theorem sum_set_int (l : List ℤ) (i : ℕ) (a : ℤ) (h : i < l.length) :
    (l.set i a).sum = l.sum - l.getD i 0 + a := by
  induction l generalizing i with
  | nil => simp at h
  | cons x xs ih =>
      cases i with
      | zero => simp [List.set]; ring
      | succ i =>
          simp only [List.set, List.sum_cons, List.getD_cons_succ]
          rw [ih i (by simpa using h)]
          ring

theorem getD_map_int (l : List ℚ) (f : ℚ → ℤ) (j : ℕ) (h : j < l.length) :
    (l.map f).getD j 0 = f (l.getD j 0) := by
  induction l generalizing j with
  | nil => simp at h
  | cons x xs ih =>
      cases j with
      | zero => simp [List.getD]
      | succ j =>
          simp only [List.map_cons, List.getD_cons_succ]
          exact ih j (by simpa using h)

theorem argmaxAux_lt_or_eq (xs : List ℤ) (i best : ℕ) (bv : ℤ) :
    argmaxAux xs i best bv < i + xs.length ∨ argmaxAux xs i best bv = best := by
  induction xs generalizing i best bv with
  | nil => right; rfl
  | cons x xs ih =>
      simp only [argmaxAux]
      by_cases hx : bv < x
      · rw [if_pos hx]
        left
        rcases ih (i + 1) i x with h | h
        · calc argmaxAux xs (i + 1) i x < i + 1 + xs.length := h
            _ = i + (x :: xs).length := by simp [List.length_cons]; ring
        · rw [h]; simp [List.length_cons]
      · rw [if_neg hx]
        rcases ih (i + 1) best bv with h | h
        · left
          calc argmaxAux xs (i + 1) best bv < i + 1 + xs.length := h
            _ = i + (x :: xs).length := by simp [List.length_cons]; ring
        · right; exact h

theorem argmax_lt_length (l : List ℤ) (h : l ≠ []) : argmax l < l.length := by
  cases l with
  | nil => exact absurd rfl h
  | cons x xs =>
      simp only [argmax]
      rcases argmaxAux_lt_or_eq xs 1 0 x with h' | h'
      · simpa [List.length_cons, Nat.add_comm] using h'
      · rw [h']; simp

theorem argmaxAux_spec (xs : List ℤ) (i best : ℕ) (bv : ℤ) :
    (argmaxAux xs i best bv = best ∧ ∀ k, k < xs.length → xs.getD k 0 ≤ bv)
    ∨ (∃ k, k < xs.length ∧ argmaxAux xs i best bv = i + k ∧
        bv < xs.getD k 0 ∧
        (∀ j, j < xs.length → xs.getD j 0 ≤ xs.getD k 0) ∧
        (∀ j, j < k → xs.getD j 0 < xs.getD k 0)) := by
  induction xs generalizing i best bv with
  | nil =>
      left
      exact ⟨rfl, by intro k hk; simp at hk⟩
  | cons x xs ih =>
      by_cases hx : bv < x
      · rw [show argmaxAux (x :: xs) i best bv = argmaxAux xs (i + 1) i x from by
          simp [argmaxAux, hx]]
        rcases ih (i + 1) i x with ⟨heq, hle⟩ | ⟨k, hk, heq, hgt, hmax, hfirst⟩
        · right
          refine ⟨0, by simp, by omega, by simpa using hx, ?_, by omega⟩
          intro j hj
          cases j with
          | zero => simp
          | succ j =>
              simp only [List.getD_cons_succ, List.getD_cons_zero]
              exact hle j (by simpa using hj)
        · right
          refine ⟨k + 1, by simpa using hk, by omega, ?_, ?_, ?_⟩
          · simpa using lt_trans hx hgt
          · intro j hj
            cases j with
            | zero =>
                simp only [List.getD_cons_zero, List.getD_cons_succ]
                exact le_of_lt hgt
            | succ j =>
                simp only [List.getD_cons_succ]
                exact hmax j (by simpa using hj)
          · intro j hj
            cases j with
            | zero =>
                simp only [List.getD_cons_zero, List.getD_cons_succ]
                exact hgt
            | succ j =>
                simp only [List.getD_cons_succ]
                exact hfirst j (by omega)
      · rw [show argmaxAux (x :: xs) i best bv = argmaxAux xs (i + 1) best bv from by
          simp [argmaxAux, hx]]
        rcases ih (i + 1) best bv with ⟨heq, hle⟩ | ⟨k, hk, heq, hgt, hmax, hfirst⟩
        · left
          refine ⟨heq, ?_⟩
          intro k hk
          cases k with
          | zero => simpa using not_lt.mp hx
          | succ k =>
              simp only [List.getD_cons_succ]
              exact hle k (by simpa using hk)
        · right
          refine ⟨k + 1, by simpa using hk, by omega, ?_, ?_, ?_⟩
          · simpa using hgt
          · intro j hj
            cases j with
            | zero =>
                simp only [List.getD_cons_zero, List.getD_cons_succ]
                exact le_of_lt (lt_of_le_of_lt (not_lt.mp hx) hgt)
            | succ j =>
                simp only [List.getD_cons_succ]
                exact hmax j (by simpa using hj)
          · intro j hj
            cases j with
            | zero =>
                simp only [List.getD_cons_zero, List.getD_cons_succ]
                exact lt_of_le_of_lt (not_lt.mp hx) hgt
            | succ j =>
                simp only [List.getD_cons_succ]
                exact hfirst j (by omega)

theorem argmax_is_first_max (l : List ℤ) (h : l ≠ []) :
    (∀ j, j < l.length → l.getD j 0 ≤ l.getD (argmax l) 0) ∧
    ∀ j, j < argmax l → l.getD j 0 < l.getD (argmax l) 0 := by
  cases l with
  | nil => exact absurd rfl h
  | cons x xs =>
      rcases argmaxAux_spec xs 1 0 x with ⟨heq, hle⟩ | ⟨k, hk, heq, hgt, hmax, hfirst⟩
      · have hax : argmax (x :: xs) = 0 := heq
        rw [hax]
        constructor
        · intro j hj
          cases j with
          | zero => simp
          | succ j =>
              simp only [List.getD_cons_succ, List.getD_cons_zero]
              exact hle j (by simpa using hj)
        · intro j hj
          omega
      · have hax : argmax (x :: xs) = k + 1 := by
          show argmaxAux xs 1 0 x = k + 1
          omega
        rw [hax]
        constructor
        · intro j hj
          cases j with
          | zero =>
              simp only [List.getD_cons_zero, List.getD_cons_succ]
              exact le_of_lt hgt
          | succ j =>
              simp only [List.getD_cons_succ]
              exact hmax j (by simpa using hj)
        · intro j hj
          cases j with
          | zero =>
              simp only [List.getD_cons_zero, List.getD_cons_succ]
              exact hgt
          | succ j =>
              simp only [List.getD_cons_succ]
              exact hfirst j (by omega)

theorem npRound_nonneg (q : ℚ) (h : 0 ≤ q) : 0 ≤ npRound q := by
  have hf : (0 : ℤ) ≤ ⌊q⌋ := Int.le_floor.mpr (by exact_mod_cast h)
  simp only [npRound]
  split
  · exact hf
  · split
    · omega
    · split
      · exact hf
      · omega

/-! Claim theorems. -/

/-- C1.  The fixed-quota planner rounds `weight * batch_size` per class, adds
the whole remainder `batch_size - sum(raw)` to the class receiving it — the
index `argmax raw`, which carries the largest raw value and is the first
occurrence on ties — and the resulting quota sums exactly to `batch_size`. -/
theorem fixBatches_sums_to_batch_size (weights : List ℚ) (batch_size : ℕ)
    (_hnn : ∀ w ∈ weights, 0 ≤ w) (hsum : weights.sum = 1) (_hbs : 0 < batch_size) :
    (fixBatches weights batch_size).sum = (batch_size : ℤ) ∧
    (∀ j, j < (weights.map (fun w => npRound (w * (batch_size : ℚ)))).length →
      (weights.map (fun w => npRound (w * (batch_size : ℚ)))).getD j 0
        ≤ (weights.map (fun w => npRound (w * (batch_size : ℚ)))).getD
            (argmax (weights.map (fun w => npRound (w * (batch_size : ℚ))))) 0) ∧
    (∀ j, j < argmax (weights.map (fun w => npRound (w * (batch_size : ℚ)))) →
      (weights.map (fun w => npRound (w * (batch_size : ℚ)))).getD j 0
        < (weights.map (fun w => npRound (w * (batch_size : ℚ)))).getD
            (argmax (weights.map (fun w => npRound (w * (batch_size : ℚ))))) 0) := by
  have hne : weights ≠ [] := by
    intro h
    rw [h] at hsum
    simp at hsum
  have hrawne : weights.map (fun w => npRound (w * (batch_size : ℚ))) ≠ [] := by
    simpa using hne
  obtain ⟨hmax, hfirst⟩ := argmax_is_first_max _ hrawne
  refine ⟨?_, hmax, hfirst⟩
  unfold fixBatches
  set raw := weights.map (fun w => npRound (w * (batch_size : ℚ))) with hraw
  have hlt : argmax raw < raw.length := argmax_lt_length raw hrawne
  rw [sum_set_int raw (argmax raw) _ hlt]
  ring

/-- Witness for C1 at the spec's end-to-end example: weights `[1/2, 1/2]`,
batch size 4 give a quota summing to 4. -/
theorem fixBatches_sums_to_batch_size_witness :
    (∀ w ∈ [(1 : ℚ)/2, 1/2], 0 ≤ w) ∧ ([(1 : ℚ)/2, 1/2].sum = 1) ∧ 0 < 4 ∧
    (fixBatches [(1 : ℚ)/2, 1/2] 4).sum = (4 : ℤ) :=
  ⟨by norm_num, by norm_num, by norm_num,
    (fixBatches_sums_to_batch_size [(1 : ℚ)/2, 1/2] 4 (by norm_num) (by norm_num)
      (by norm_num)).1⟩

/-- C8 counterexample.  The claim "every entry of the quota vector is >= 0"
fails: for the non-negative weight vector `[1/5, 1/5, 1/5, 1/5, 1/5]` (summing
to 1) and batch size 3, every raw value rounds to 1, the remainder is `-2`,
and the first class receives `1 - 2 = -1 < 0`. -/
theorem fixBatches_negative_entry_counterexample :
    (∀ w ∈ [(1 : ℚ)/5, 1/5, 1/5, 1/5, 1/5], 0 ≤ w) ∧
    ([(1 : ℚ)/5, 1/5, 1/5, 1/5, 1/5].sum = 1) ∧ 0 < 3 ∧
    fixBatches [(1 : ℚ)/5, 1/5, 1/5, 1/5, 1/5] 3 = [-1, 1, 1, 1, 1] ∧
    (fixBatches [(1 : ℚ)/5, 1/5, 1/5, 1/5, 1/5] 3).getD 0 0 < 0 := by
  refine ⟨by norm_num, by norm_num, by norm_num, ?_, ?_⟩ <;>
  · simp only [fixBatches, List.map_cons, List.map_nil]
    norm_num [npRound, argmax, argmaxAux]

/-- C8 amended.  For every non-negative weight vector, every entry of the
planned quota OTHER than the remainder-receiving class (the first class with
the largest rounded value) is >= 0; the remainder-receiving entry itself can be
negative (see the counterexample). -/
theorem fixBatches_nonneg_off_argmax (weights : List ℚ) (batch_size : ℕ)
    (hnn : ∀ w ∈ weights, 0 ≤ w) :
    ∀ j, j ≠ argmax (weights.map (fun w => npRound (w * (batch_size : ℚ)))) →
      0 ≤ (fixBatches weights batch_size).getD j 0 := by
  intro j hj
  unfold fixBatches
  set raw := weights.map (fun w => npRound (w * (batch_size : ℚ))) with hraw
  rw [getD_set_ne raw (argmax raw) j _ _ (fun h => hj h.symm)]
  by_cases hlen : j < raw.length
  · have hlenw : j < weights.length := by simpa [hraw] using hlen
    rw [hraw, getD_map_int weights _ j hlenw]
    refine npRound_nonneg _ (mul_nonneg ?_ (by positivity))
    rw [List.getD_eq_getElem _ _ hlenw]
    exact hnn _ (List.getElem_mem hlenw)
  · rw [List.getD_eq_default _ _ (Nat.le_of_not_lt hlen)]

/-- Witness for the amended C8: with weights `[1/2, 1/2]` and batch size 4 the
raw quota is `[2, 2]`, the remainder goes to class 0, and the other entry
(class 1) is non-negative. -/
theorem fixBatches_nonneg_off_argmax_witness :
    (∀ w ∈ [(1 : ℚ)/2, 1/2], 0 ≤ w) ∧
    (1 ≠ argmax ([(1 : ℚ)/2, 1/2].map (fun w => npRound (w * (4 : ℚ))))) ∧
    0 ≤ (fixBatches [(1 : ℚ)/2, 1/2] 4).getD 1 0 := by
  have hm : [(1 : ℚ)/2, 1/2].map (fun w => npRound (w * (4 : ℚ))) = [2, 2] := by
    simp only [List.map_cons, List.map_nil]
    norm_num [npRound]
  have hne : 1 ≠ argmax ([(1 : ℚ)/2, 1/2].map (fun w => npRound (w * (4 : ℚ)))) := by
    rw [hm]
    decide
  exact ⟨by norm_num, hne,
    fixBatches_nonneg_off_argmax [(1 : ℚ)/2, 1/2] 4 (by norm_num) 1 hne⟩

theorem getD_replicate {α : Type} (n c : ℕ) (a d : α) (h : c < n) :
    (List.replicate n a).getD c d = a := by
  induction n generalizing c with
  | zero => simp at h
  | succ n ih =>
      cases c with
      | zero => simp [List.replicate, List.getD]
      | succ c =>
          simp only [List.replicate, List.getD_cons_succ]
          exact ih c (by omega)

theorem getD_map {α β : Type} (l : List α) (f : α → β) (j : ℕ) (db : β) (da : α)
    (h : j < l.length) : (l.map f).getD j db = f (l.getD j da) := by
  induction l generalizing j with
  | nil => simp at h
  | cons x xs ih =>
      cases j with
      | zero => simp [List.getD]
      | succ j =>
          simp only [List.map_cons, List.getD_cons_succ]
          exact ih j (by simpa using h)

theorem sum_map_div_nat (l : List ℕ) (d : ℚ) :
    (l.map (fun (s : ℕ) => (s : ℚ) / d)).sum = ((l.sum : ℕ) : ℚ) / d := by
  induction l with
  | nil => simp
  | cons x xs ih =>
      simp only [List.map_cons, List.sum_cons, Nat.cast_add]
      rw [ih]
      ring

theorem balanceWeights_sum (wa wb : List ℚ) (alpha : ℚ) (h : wa.length = wb.length) :
    (balanceWeights wa wb alpha).sum = alpha * wa.sum + (1 - alpha) * wb.sum := by
  induction wa generalizing wb with
  | nil =>
      cases wb with
      | nil => simp [balanceWeights]
      | cons y ys => simp at h
  | cons x xs ih =>
      cases wb with
      | nil => simp at h
      | cons y ys =>
          have hxs : (balanceWeights xs ys alpha).sum
              = alpha * xs.sum + (1 - alpha) * ys.sum := ih ys (by simpa using h)
          simp only [balanceWeights, List.zip_cons_cons, List.map_cons, List.sum_cons] at *
          rw [hxs]
          ring

theorem balanceWeights_getD (wa wb : List ℚ) (alpha : ℚ) (c : ℕ)
    (ha : c < wa.length) (_hb : c < wb.length) :
    (balanceWeights wa wb alpha).getD c 0
      = alpha * wa.getD c 0 + (1 - alpha) * wb.getD c 0 := by
  induction wa generalizing wb c with
  | nil => simp at ha
  | cons x xs ih =>
      cases wb with
      | nil => simp at _hb
      | cons y ys =>
          cases c with
          | zero => simp [balanceWeights, List.getD]
          | succ c =>
              simp only [balanceWeights, List.zip_cons_cons, List.map_cons,
                List.getD_cons_succ]
              exact ih ys c (by simpa using ha) (by simpa using _hb)

theorem balanceWeights_zero (wa wb : List ℚ) (h : wa.length = wb.length) :
    balanceWeights wa wb 0 = wb := by
  induction wa generalizing wb with
  | nil =>
      cases wb with
      | nil => simp [balanceWeights]
      | cons y ys => simp at h
  | cons x xs ih =>
      cases wb with
      | nil => simp at h
      | cons y ys =>
          simp only [balanceWeights, List.zip_cons_cons, List.map_cons] at *
          refine List.cons_eq_cons.mpr ⟨by ring, ?_⟩
          exact ih ys (by simpa using h)

theorem balanceWeights_one (wa wb : List ℚ) (h : wa.length = wb.length) :
    balanceWeights wa wb 1 = wa := by
  induction wa generalizing wb with
  | nil => simp [balanceWeights]
  | cons x xs ih =>
      cases wb with
      | nil => simp at h
      | cons y ys =>
          simp only [balanceWeights, List.zip_cons_cons, List.map_cons] at *
          refine List.cons_eq_cons.mpr ⟨by ring, ?_⟩
          exact ih ys (by simpa using h)

/-- C2.  The computed weight vector is `alpha * (1/C) + (1-alpha) * (size_c/N)`
componentwise, sums to 1, is non-negative, equals the natural proportions at
`alpha = 0`, and equals `1/C` in every component at `alpha = 1`. -/
theorem weightClasses_spec (class_idxs : List (List ℕ)) (alpha : ℚ)
    (hC : class_idxs ≠ []) (hsz : ∀ l ∈ class_idxs, l ≠ [])
    (h0 : 0 ≤ alpha) (h1 : alpha ≤ 1) :
    (∀ c, c < class_idxs.length →
      (weightClasses class_idxs alpha).getD c 0
        = alpha * (1 / (class_idxs.length : ℚ))
          + (1 - alpha) * (((class_idxs.map List.length).getD c 0 : ℚ)
              / (((class_idxs.map List.length).sum : ℕ) : ℚ)))
    ∧ (weightClasses class_idxs alpha).sum = 1
    ∧ (∀ w ∈ weightClasses class_idxs alpha, 0 ≤ w)
    ∧ weightClasses class_idxs 0
        = (class_idxs.map List.length).map
            (fun (s : ℕ) => (s : ℚ) / (((class_idxs.map List.length).sum : ℕ) : ℚ))
    ∧ weightClasses class_idxs 1
        = List.replicate class_idxs.length (1 / (class_idxs.length : ℚ)) := by
  have hCpos : 0 < class_idxs.length := List.length_pos.mpr hC
  have hCne : ((class_idxs.length : ℚ)) ≠ 0 := by
    exact_mod_cast Nat.pos_iff_ne_zero.mp hCpos
  have hNpos : 0 < (class_idxs.map List.length).sum := by
    cases class_idxs with
    | nil => exact absurd rfl hC
    | cons l ls =>
        have hl : l ≠ [] := hsz l (by simp)
        have : 0 < l.length := List.length_pos.mpr hl
        simp only [List.map_cons, List.sum_cons]
        omega
  have hNne : (((class_idxs.map List.length).sum : ℕ) : ℚ) ≠ 0 := by
    exact_mod_cast Nat.pos_iff_ne_zero.mp hNpos
  have hlenu : (List.replicate class_idxs.length ((1 : ℚ) / (class_idxs.length : ℚ))).length
      = class_idxs.length := List.length_replicate _ _
  have hleno : ((class_idxs.map List.length).map
      (fun (s : ℕ) => (s : ℚ) / (((class_idxs.map List.length).sum : ℕ) : ℚ))).length
      = class_idxs.length := by simp
  refine ⟨?_, ?_, ?_, ?_, ?_⟩
  · intro c hc
    simp only [weightClasses]
    rw [balanceWeights_getD _ _ _ c (by rw [hlenu]; exact hc) (by rw [hleno]; exact hc)]
    rw [getD_replicate _ c _ _ hc]
    rw [getD_map _ _ c _ 0 (by simpa using hc)]
  · simp only [weightClasses]
    rw [balanceWeights_sum _ _ _ (by rw [hlenu, hleno])]
    rw [List.sum_replicate, sum_map_div_nat]
    rw [nsmul_eq_mul, div_self hNne, mul_one_div, div_self hCne]
    ring
  · intro w hw
    simp only [weightClasses, balanceWeights, List.mem_map] at hw
    obtain ⟨p, hp, rfl⟩ := hw
    have hmem := List.of_mem_zip hp
    have hu : 0 ≤ p.1 := by
      have := List.eq_of_mem_replicate hmem.1
      rw [this]
      positivity
    have ho : 0 ≤ p.2 := by
      obtain ⟨s, _, hs⟩ := List.mem_map.mp hmem.2
      rw [← hs]
      positivity
    have hba : 0 ≤ 1 - alpha := by linarith
    positivity
  · simp only [weightClasses]
    exact balanceWeights_zero _ _ (by rw [hlenu, hleno])
  · simp only [weightClasses]
    exact balanceWeights_one _ _ (by rw [hlenu, hleno])

/-- Witness for C2 at the spec's end-to-end example: classes of sizes 3 and 7
with `alpha = 1/2` (all hypotheses hold, so all five conjuncts hold there). -/
theorem weightClasses_spec_witness :
    ([[0,1,2],[3,4,5,6,7,8,9]] : List (List ℕ)) ≠ [] ∧
    (∀ l ∈ ([[0,1,2],[3,4,5,6,7,8,9]] : List (List ℕ)), l ≠ []) ∧
    (0 : ℚ) ≤ 1/2 ∧ (1/2 : ℚ) ≤ 1 ∧
    (weightClasses [[0,1,2],[3,4,5,6,7,8,9]] (1/2)).sum = 1 :=
  ⟨by simp, by simp, by norm_num, by norm_num,
    (weightClasses_spec [[0,1,2],[3,4,5,6,7,8,9]] (1/2) (by simp) (by simp)
      (by norm_num) (by norm_num)).2.1⟩

theorem intRange_length (a b : ℤ) : (intRange a b).length = (b - a).toNat := by
  simp [intRange]

theorem intRange_getD (a b : ℤ) (k : ℕ) (h : k < (b - a).toNat) :
    (intRange a b).getD k 0 = a + (k : ℤ) := by
  unfold intRange
  rw [getD_map _ _ k _ 0 (by simpa using h)]
  rw [List.getD_eq_getElem _ _ (by simpa using h), List.getElem_range]

/-- C10.  Single-element circular indexing is always in bounds for a non-empty
pool: the effective index `key % len(items)` is a valid position, and the
returned value is an element of the pool (no out-of-bounds access for any
integer key, negative keys included). -/
theorem circGet_in_bounds (items : List ℕ) (key : ℤ) (h : items ≠ []) :
    ((key % (items.length : ℤ)).toNat < items.length) ∧
    circGet items key = items.getD ((key % (items.length : ℤ)).toNat) 0 ∧
    circGet items key ∈ items := by
  have hlen : 0 < items.length := List.length_pos.mpr h
  have hlz : (0 : ℤ) < (items.length : ℤ) := by exact_mod_cast hlen
  have hnn : 0 ≤ key % (items.length : ℤ) := Int.emod_nonneg key (by omega)
  have hlt : key % (items.length : ℤ) < (items.length : ℤ) := Int.emod_lt_of_pos key hlz
  have hidx : (key % (items.length : ℤ)).toNat < items.length := by omega
  refine ⟨hidx, rfl, ?_⟩
  rw [show circGet items key = items.getD ((key % (items.length : ℤ)).toNat) 0 from rfl]
  rw [List.getD_eq_getElem _ _ hidx]
  exact List.getElem_mem hidx

/-- Witness for C10 at a negative key: pool `[5, 7]`, key `-1`; the effective
index is 1, in bounds, and the read returns 7. -/
theorem circGet_in_bounds_witness :
    ([5, 7] : List ℕ) ≠ [] ∧
    (((-1 : ℤ) % ((([5, 7] : List ℕ).length : ℕ) : ℤ)).toNat < ([5, 7] : List ℕ).length) ∧
    circGet [5, 7] (-1) = 7 :=
  ⟨by decide, (circGet_in_bounds [5, 7] (-1) (by decide)).1, by decide⟩

/-- C4.  A circular-slice read of `length` elements starting anywhere returns
exactly `length` elements, the `k`-th being `items[(start + k) % len(items)]`. -/
theorem circSlice_reads_modulo (items : List ℕ) (start : ℤ) (len : ℕ)
    (_h : items ≠ []) :
    (circSlice items start (start + (len : ℤ))).length = len ∧
    ∀ k, k < len → (circSlice items start (start + (len : ℤ))).getD k 0
      = items.getD (((start + (k : ℤ)) % (items.length : ℤ)).toNat) 0 := by
  have hrl : (start + (len : ℤ) - start).toNat = len := by omega
  constructor
  · simp [circSlice, intRange_length, hrl]
  · intro k hk
    unfold circSlice
    rw [getD_map _ _ k _ 0 (by rw [intRange_length, hrl]; exact hk)]
    rw [intRange_getD _ _ k (by rw [hrl]; exact hk)]
    rfl

/-- Witness for C4 at the spec's example: pool `[5, 7]` read with length 5 from
start 0 yields `[5, 7, 5, 7, 5]` (5 elements, wrapping around). -/
theorem circSlice_reads_modulo_witness :
    ([5, 7] : List ℕ) ≠ [] ∧
    (circSlice [5, 7] 0 ((0 : ℤ) + (5 : ℕ))).length = 5 ∧
    circSlice [5, 7] 0 5 = [5, 7, 5, 7, 5] :=
  ⟨by decide, (circSlice_reads_modulo [5, 7] 0 5 (by decide)).1, by decide⟩

/-! Helper lemmas about the fixed sampler's iteration. -/

namespace WeightedFixedBatchSampler

theorem iterLoop_length (s : WeightedFixedBatchSampler) (bp : List ℕ → List ℕ)
    (starts : List ℤ) (n : ℕ) : (iterLoop s bp starts n).length = n := by
  induction n generalizing starts with
  | zero => rfl
  | succ n ih => simp [iterLoop, ih]

theorem circSlice_length (items : List ℕ) (st q : ℤ) :
    (circSlice items st (st + q)).length = q.toNat := by
  simp only [circSlice, List.length_map, intRange_length]
  omega

theorem flatten_circ_read_length (qs : List ℤ) (ps : List (List ℕ)) (sts : List ℤ)
    (hp : qs.length ≤ ps.length) (hs : qs.length ≤ sts.length)
    (hq : ∀ q ∈ qs, 0 ≤ q) :
    (((qs.zip (ps.zip sts)).map
        (fun p => circSlice p.2.1 p.2.2 (p.2.2 + p.1))).flatten).length
      = qs.sum.toNat := by
  induction qs generalizing ps sts with
  | nil => simp
  | cons q qs ih =>
      cases ps with
      | nil => simp at hp
      | cons p ps =>
          cases sts with
          | nil => simp at hs
          | cons st sts =>
              have hq0 : 0 ≤ q := hq q (by simp)
              have hqs : ∀ x ∈ qs, 0 ≤ x := fun x hx => hq x (by simp [hx])
              have hsum : 0 ≤ qs.sum := List.sum_nonneg hqs
              simp only [List.zip_cons_cons, List.map_cons, List.flatten_cons,
                List.length_append, List.sum_cons]
              rw [circSlice_length, ih ps sts (by simpa using hp) (by simpa using hs) hqs]
              omega

theorem getBatch_length_circular (s : WeightedFixedBatchSampler)
    (bp : List ℕ → List ℕ) (starts : List ℤ)
    (hcirc : s.circular_list = true)
    (hlen : s.class_samples_per_batch.length ≤ s.class_idxs.length)
    (hst : s.class_samples_per_batch.length ≤ starts.length)
    (hq : ∀ q ∈ s.class_samples_per_batch, 0 ≤ q)
    (hbp : ∀ l : List ℕ, (bp l).length = l.length) :
    (getBatch s bp starts).length = s.batch_size.toNat := by
  unfold getBatch
  have hpool : (fun (p : ℤ × List ℕ × ℤ) => poolRead s.circular_list p.2.1 p.2.2 (p.2.2 + p.1))
      = (fun p => circSlice p.2.1 p.2.2 (p.2.2 + p.1)) := by
    funext p
    simp [poolRead, hcirc]
  rw [hpool]
  have hflat := flatten_circ_read_length s.class_samples_per_batch s.class_idxs starts
    hlen hst hq
  split
  · rw [hbp, hflat]; rfl
  · rw [hflat]; rfl

theorem iterLoop_batches_length_circular (s : WeightedFixedBatchSampler)
    (bp : List ℕ → List ℕ) (n : ℕ) (starts : List ℤ)
    (hcirc : s.circular_list = true)
    (hlen : s.class_samples_per_batch.length ≤ s.class_idxs.length)
    (hst : s.class_samples_per_batch.length ≤ starts.length)
    (hq : ∀ q ∈ s.class_samples_per_batch, 0 ≤ q)
    (hbp : ∀ l : List ℕ, (bp l).length = l.length) :
    ∀ batch ∈ iterLoop s bp starts n, batch.length = s.batch_size.toNat := by
  induction n generalizing starts with
  | zero => simp [iterLoop]
  | succ n ih =>
      intro batch hb
      simp only [iterLoop, List.mem_cons] at hb
      rcases hb with hb | hb
      · rw [hb]
        exact getBatch_length_circular s bp starts hcirc hlen hst hq hbp
      · refine ih (starts.zipWith (· + ·) s.class_samples_per_batch) ?_ batch hb
        simp only [List.length_zipWith]
        omega

theorem iterPass_state_fields (s : WeightedFixedBatchSampler)
    (pp bp : List ℕ → List ℕ) :
    (iterPass s pp bp).2.class_samples_per_batch = s.class_samples_per_batch ∧
    (iterPass s pp bp).2.n_batches = s.n_batches ∧
    (iterPass s pp bp).2.circular_list = s.circular_list ∧
    (iterPass s pp bp).2.shuffle = s.shuffle ∧
    (iterPass s pp bp).2.class_idxs.length = s.class_idxs.length := by
  unfold iterPass
  split <;> simp

theorem runPasses_state_fields (s : WeightedFixedBatchSampler)
    (perms : List ((List ℕ → List ℕ) × (List ℕ → List ℕ))) :
    (runPasses s perms).class_samples_per_batch = s.class_samples_per_batch ∧
    (runPasses s perms).n_batches = s.n_batches ∧
    (runPasses s perms).circular_list = s.circular_list ∧
    (runPasses s perms).shuffle = s.shuffle ∧
    (runPasses s perms).class_idxs.length = s.class_idxs.length := by
  induction perms generalizing s with
  | nil => simp [runPasses]
  | cons pr prs ih =>
      have h1 := iterPass_state_fields s pr.1 pr.2
      have h2 := ih (iterPass s pr.1 pr.2).2
      simp only [runPasses]
      exact ⟨h2.1.trans h1.1, h2.2.1.trans h1.2.1, h2.2.2.1.trans h1.2.2.1,
        h2.2.2.2.1.trans h1.2.2.2.1, h2.2.2.2.2.trans h1.2.2.2.2⟩

end WeightedFixedBatchSampler

open WeightedFixedBatchSampler in
/-- C5.  A fixed sampler over circular pools: after any number of earlier
iteration passes, the length query still answers `n_batches`, a fresh pass
yields exactly `n_batches` batches, and every batch has length
`sum(class_samples_per_batch)` (the sampler's `batch_size`). -/
theorem fixedSampler_epoch_counts (s : WeightedFixedBatchSampler)
    (perms : List ((List ℕ → List ℕ) × (List ℕ → List ℕ)))
    (pp bp : List ℕ → List ℕ)
    (hcirc : s.circular_list = true)
    (hlen : s.class_samples_per_batch.length ≤ s.class_idxs.length)
    (_hpools : ∀ p ∈ s.class_idxs, p ≠ [])
    (hq : ∀ q ∈ s.class_samples_per_batch, 0 ≤ q)
    (hbp : ∀ l : List ℕ, (bp l).length = l.length) :
    sampLen (runPasses s perms) = s.n_batches ∧
    ((iterPass (runPasses s perms) pp bp).1).length = s.n_batches ∧
    ∀ batch ∈ (iterPass (runPasses s perms) pp bp).1,
      batch.length = s.batch_size.toNat := by
  obtain ⟨hf1, hf2, hf3, hf4, hf5⟩ := runPasses_state_fields s perms
  set t := runPasses s perms with ht
  obtain ⟨hg1, hg2, hg3, hg4, hg5⟩ := iterPass_state_fields t pp bp
  set u := (iterPass t pp bp).2 with hu
  refine ⟨hf2, ?_, ?_⟩
  · show (iterLoop u bp (List.replicate u.n_classes 0) u.n_batches).length = s.n_batches
    rw [iterLoop_length, hg2, hf2]
  · show ∀ batch ∈ iterLoop u bp (List.replicate u.n_classes 0) u.n_batches, _
    intro batch hb
    have hres := iterLoop_batches_length_circular u bp u.n_batches
      (List.replicate u.n_classes 0)
      (by rw [hg3, hf3]; exact hcirc)
      (by rw [hg1, hf1, hg5, hf5]; exact hlen)
      (by rw [List.length_replicate]; rfl)
      (by rw [hg1, hf1]; exact hq) hbp batch hb
    rw [hres]
    show (u.class_samples_per_batch.sum).toNat = (s.class_samples_per_batch.sum).toNat
    rw [hg1, hf1]

open WeightedFixedBatchSampler in
/-- Witness for C5: the spec's end-to-end sampler (quota `[2, 2]`, pools of
sizes 3 and 7, 3 batches, circular), no prior passes: the length query answers
3, the pass yields 3 batches, each of length 4. -/
theorem fixedSampler_epoch_counts_witness :
    ((⟨[2, 2], [[0, 1, 2], [3, 4, 5, 6, 7, 8, 9]], 3, true, false⟩ :
        WeightedFixedBatchSampler).circular_list = true) ∧
    sampLen (runPasses (⟨[2, 2], [[0, 1, 2], [3, 4, 5, 6, 7, 8, 9]], 3, true, false⟩ :
        WeightedFixedBatchSampler) []) = 3 ∧
    ∀ batch ∈ (iterPass (runPasses (⟨[2, 2], [[0, 1, 2], [3, 4, 5, 6, 7, 8, 9]], 3,
        true, false⟩ : WeightedFixedBatchSampler) []) id id).1,
      batch.length = 4 :=
  have h := fixedSampler_epoch_counts
    (⟨[2, 2], [[0, 1, 2], [3, 4, 5, 6, 7, 8, 9]], 3, true, false⟩ :
      WeightedFixedBatchSampler) [] id id rfl (by decide) (by decide) (by decide)
    (fun _ => rfl)
  ⟨rfl, h.1, h.2.2⟩

namespace WeightedFixedBatchSampler

theorem getBatch_of_not_shuffle (s : WeightedFixedBatchSampler)
    (bp1 bp2 : List ℕ → List ℕ) (starts : List ℤ) (h : s.shuffle = false) :
    getBatch s bp1 starts = getBatch s bp2 starts := by
  simp [getBatch, h]

theorem iterLoop_of_not_shuffle (s : WeightedFixedBatchSampler)
    (bp1 bp2 : List ℕ → List ℕ) (starts : List ℤ) (n : ℕ) (h : s.shuffle = false) :
    iterLoop s bp1 starts n = iterLoop s bp2 starts n := by
  induction n generalizing starts with
  | zero => rfl
  | succ n ih =>
      simp only [iterLoop]
      rw [getBatch_of_not_shuffle s bp1 bp2 starts h, ih]

theorem iterPass_state_of_not_shuffle (s : WeightedFixedBatchSampler)
    (pp bp : List ℕ → List ℕ) (h : s.shuffle = false) :
    (iterPass s pp bp).2 = s := by
  simp [iterPass, h]

theorem startAt_zero (quota : List ℤ) :
    startAt quota 0 = List.replicate quota.length 0 := by
  induction quota with
  | nil => rfl
  | cons q qs ih =>
      simp only [startAt, List.map_cons, List.length_cons, List.replicate_succ] at *
      exact List.cons_eq_cons.mpr ⟨by push_cast; ring, ih⟩

theorem startAt_succ (quota : List ℤ) (b : ℕ) :
    (startAt quota b).zipWith (· + ·) quota = startAt quota (b + 1) := by
  induction quota with
  | nil => rfl
  | cons q qs ih =>
      simp only [startAt, List.map_cons, List.zipWith_cons_cons] at *
      rw [ih]
      push_cast
      ring_nf

theorem iterLoop_getD_startAt (s : WeightedFixedBatchSampler)
    (bp : List ℕ → List ℕ) (n b b0 : ℕ) (hb : b < n) :
    (iterLoop s bp (startAt s.class_samples_per_batch b0) n).getD b []
      = getBatch s bp (startAt s.class_samples_per_batch (b0 + b)) := by
  induction n generalizing b b0 with
  | zero => omega
  | succ n ih =>
      cases b with
      | zero => simp only [iterLoop, List.getD_cons_zero, Nat.add_zero]
      | succ b =>
          simp only [iterLoop, List.getD_cons_succ]
          rw [startAt_succ]
          rw [ih b (b0 + 1) (by omega)]
          congr 2
          omega

theorem zip_startAt_read (circ : Bool) (q : List ℤ) (ps : List (List ℕ)) (b : ℕ) :
    (q.zip (ps.zip (startAt q b))).map
        (fun p => poolRead circ p.2.1 p.2.2 (p.2.2 + p.1))
      = (q.zip ps).map
          (fun p => poolRead circ p.2 ((b : ℤ) * p.1) ((b : ℤ) * p.1 + p.1)) := by
  induction q generalizing ps with
  | nil => rfl
  | cons x xs ih =>
      cases ps with
      | nil => rfl
      | cons p ps =>
          have hh : (x :: xs).zip ((p :: ps).zip (startAt (x :: xs) b))
              = (x, (p, (b : ℤ) * x)) :: xs.zip (ps.zip (startAt xs b)) := rfl
          rw [hh, List.map_cons, ih, List.zip_cons_cons, List.map_cons]

end WeightedFixedBatchSampler

open WeightedFixedBatchSampler in
/-- C6.  With no shuffle policy, a second full pass over the same sampler
instance yields the identical batch sequence, and batch `b` is the
concatenation, in class order, of each class pool read from cursor
`b * quota[c]` for `quota[c]` positions. -/
theorem fixedSampler_deterministic_passes (s : WeightedFixedBatchSampler)
    (pp1 pp2 bp1 bp2 : List ℕ → List ℕ) (hsh : s.shuffle = false) :
    (iterPass (iterPass s pp1 bp1).2 pp2 bp2).1 = (iterPass s pp1 bp1).1 ∧
    ∀ b, b < s.n_batches →
      ((iterPass s pp1 bp1).1).getD b []
        = ((s.class_samples_per_batch.zip s.class_idxs).map
            (fun p => poolRead s.circular_list p.2 ((b : ℤ) * p.1)
              ((b : ℤ) * p.1 + p.1))).flatten := by
  have hstate := iterPass_state_of_not_shuffle s pp1 bp1 hsh
  have hbatches : ∀ pp bp : List ℕ → List ℕ, (iterPass s pp bp).1
      = iterLoop s bp (List.replicate s.n_classes 0) s.n_batches := by
    intro pp bp
    simp [iterPass, hsh]
  constructor
  · rw [hstate, hbatches pp2 bp2, hbatches pp1 bp1]
    exact iterLoop_of_not_shuffle s bp2 bp1 _ _ hsh
  · intro b hb
    rw [hbatches pp1 bp1]
    rw [show (List.replicate s.n_classes (0 : ℤ))
        = startAt s.class_samples_per_batch 0 from (startAt_zero _).symm]
    rw [iterLoop_getD_startAt s bp1 s.n_batches b 0 hb]
    simp only [Nat.zero_add]
    unfold getBatch
    rw [if_neg (by rw [hsh]; exact Bool.false_ne_true)]
    rw [zip_startAt_read]

open WeightedFixedBatchSampler in
/-- Witness for C6 at the spec's end-to-end sampler (no shuffle): two passes
produce the same batches, and the concrete batch sequence is
`[[0,1,3,4],[2,0,5,6],[1,2,7,8]]`. -/
theorem fixedSampler_deterministic_passes_witness :
    ((⟨[2, 2], [[0, 1, 2], [3, 4, 5, 6, 7, 8, 9]], 3, true, false⟩ :
        WeightedFixedBatchSampler).shuffle = false) ∧
    (iterPass (iterPass (⟨[2, 2], [[0, 1, 2], [3, 4, 5, 6, 7, 8, 9]], 3, true, false⟩ :
        WeightedFixedBatchSampler) id id).2 id id).1
      = (iterPass (⟨[2, 2], [[0, 1, 2], [3, 4, 5, 6, 7, 8, 9]], 3, true, false⟩ :
          WeightedFixedBatchSampler) id id).1 ∧
    (iterPass (⟨[2, 2], [[0, 1, 2], [3, 4, 5, 6, 7, 8, 9]], 3, true, false⟩ :
        WeightedFixedBatchSampler) id id).1
      = [[0, 1, 3, 4], [2, 0, 5, 6], [1, 2, 7, 8]] :=
  ⟨rfl,
    (fixedSampler_deterministic_passes
      (⟨[2, 2], [[0, 1, 2], [3, 4, 5, 6, 7, 8, 9]], 3, true, false⟩ :
        WeightedFixedBatchSampler) id id id id rfl).1,
    by decide⟩

open WeightedFixedBatchSampler in
/-- C3 counterexample.  A non-circular sampler whose single class has pool
`[0, 1]` and quota 3 (so the read `cursor 0 + quota 3` exceeds the pool length
2) does NOT fail: iteration emits the truncated batch `[0, 1]` (length 2,
shorter than the quota sum 3), because Python list slicing truncates silently. -/
theorem nonCircular_no_failure_counterexample :
    ((0 : ℤ) + 3 > (([0, 1] : List ℕ).length : ℤ)) ∧
    (iterPass (⟨[3], [[0, 1]], 1, false, false⟩ : WeightedFixedBatchSampler) id id).1
      = [[0, 1]] ∧
    (([0, 1] : List ℕ).length ≠
      ((⟨[3], [[0, 1]], 1, false, false⟩ : WeightedFixedBatchSampler).batch_size).toNat) := by
  refine ⟨by decide, by decide, by decide⟩

namespace WeightedFixedBatchSampler

theorem pySlice_length_le (xs : List ℕ) (st q : ℤ) (hst : 0 ≤ st) (hq : 0 ≤ q) :
    (pySlice xs st (st + q)).length ≤ q.toNat := by
  unfold pySlice pySliceIdx
  rw [if_neg (by omega), if_neg (by omega)]
  simp only [List.length_take, List.length_drop]
  omega

theorem flatten_py_read_length_le (qs : List ℤ) (ps : List (List ℕ)) (sts : List ℤ)
    (hq : ∀ q ∈ qs, 0 ≤ q) (hsts : ∀ x ∈ sts, 0 ≤ x) :
    (((qs.zip (ps.zip sts)).map
        (fun p => pySlice p.2.1 p.2.2 (p.2.2 + p.1))).flatten).length
      ≤ qs.sum.toNat := by
  induction qs generalizing ps sts with
  | nil => simp
  | cons q qs ih =>
      cases ps with
      | nil => simp
      | cons p ps =>
          cases sts with
          | nil => simp
          | cons st sts =>
              have hq0 : 0 ≤ q := hq q (by simp)
              have hqs : ∀ x ∈ qs, 0 ≤ x := fun x hx => hq x (by simp [hx])
              have hst0 : 0 ≤ st := hsts st (by simp)
              have hstss : ∀ x ∈ sts, 0 ≤ x := fun x hx => hsts x (by simp [hx])
              have hsum : 0 ≤ qs.sum := List.sum_nonneg hqs
              simp only [List.zip_cons_cons, List.map_cons, List.flatten_cons,
                List.length_append, List.sum_cons]
              have h1 := pySlice_length_le p st q hst0 hq0
              have h2 := ih ps sts hqs hstss
              omega

theorem zipWith_add_nonneg (sts qs : List ℤ)
    (h1 : ∀ x ∈ sts, 0 ≤ x) (h2 : ∀ x ∈ qs, 0 ≤ x) :
    ∀ x ∈ sts.zipWith (· + ·) qs, 0 ≤ x := by
  induction sts generalizing qs with
  | nil => simp
  | cons s ss ih =>
      cases qs with
      | nil => simp
      | cons q qq =>
          intro x hx
          simp only [List.zipWith_cons_cons, List.mem_cons] at hx
          rcases hx with hx | hx
          · have := h1 s (by simp)
            have := h2 q (by simp)
            omega
          · exact ih qq (fun y hy => h1 y (by simp [hy]))
              (fun y hy => h2 y (by simp [hy])) x hx

theorem getBatch_length_le_nonCircular (s : WeightedFixedBatchSampler)
    (bp : List ℕ → List ℕ) (starts : List ℤ)
    (hcirc : s.circular_list = false)
    (hst : ∀ x ∈ starts, 0 ≤ x)
    (hq : ∀ q ∈ s.class_samples_per_batch, 0 ≤ q)
    (hbp : ∀ l : List ℕ, (bp l).length = l.length) :
    (getBatch s bp starts).length ≤ s.batch_size.toNat := by
  unfold getBatch
  have hpool : (fun (p : ℤ × List ℕ × ℤ) => poolRead s.circular_list p.2.1 p.2.2 (p.2.2 + p.1))
      = (fun p => pySlice p.2.1 p.2.2 (p.2.2 + p.1)) := by
    funext p
    simp [poolRead, hcirc]
  rw [hpool]
  have hflat := flatten_py_read_length_le s.class_samples_per_batch s.class_idxs starts
    hq hst
  split
  · rw [hbp]; exact hflat
  · exact hflat

theorem iterLoop_batches_le_nonCircular (s : WeightedFixedBatchSampler)
    (bp : List ℕ → List ℕ) (n : ℕ) (starts : List ℤ)
    (hcirc : s.circular_list = false)
    (hst : ∀ x ∈ starts, 0 ≤ x)
    (hq : ∀ q ∈ s.class_samples_per_batch, 0 ≤ q)
    (hbp : ∀ l : List ℕ, (bp l).length = l.length) :
    ∀ batch ∈ iterLoop s bp starts n, batch.length ≤ s.batch_size.toNat := by
  induction n generalizing starts with
  | zero => simp [iterLoop]
  | succ n ih =>
      intro batch hb
      simp only [iterLoop, List.mem_cons] at hb
      rcases hb with hb | hb
      · rw [hb]
        exact getBatch_length_le_nonCircular s bp starts hcirc hst hq hbp
      · exact ih (starts.zipWith (· + ·) s.class_samples_per_batch)
          (zipWith_add_nonneg starts s.class_samples_per_batch hst hq) batch hb

end WeightedFixedBatchSampler

open WeightedFixedBatchSampler in
/-- C3 amended.  With non-circular pools and no shuffle policy (with a shuffle
policy configured, the real iterator instead crashes up front with an
`AttributeError`, because plain lists have no `shuffle` method), a read past
the end of a pool does not fail and does not stop iteration: the pass still
emits exactly `n_batches` batches, each read being silently truncated to the
available elements, so batches can be SHORTER than `sum(quota)` but are still
emitted (no `IndexExhausted` error exists in the code). -/
theorem nonCircular_truncated_batches (s : WeightedFixedBatchSampler)
    (pp bp : List ℕ → List ℕ)
    (hcirc : s.circular_list = false)
    (_hsh : s.shuffle = false)
    (hq : ∀ q ∈ s.class_samples_per_batch, 0 ≤ q)
    (hbp : ∀ l : List ℕ, (bp l).length = l.length) :
    ((iterPass s pp bp).1).length = s.n_batches ∧
    ∀ batch ∈ (iterPass s pp bp).1, batch.length ≤ s.batch_size.toNat := by
  obtain ⟨hg1, hg2, hg3, _hg4, _hg5⟩ := iterPass_state_fields s pp bp
  set u := (iterPass s pp bp).2 with hu
  constructor
  · show (iterLoop u bp (List.replicate u.n_classes 0) u.n_batches).length = s.n_batches
    rw [iterLoop_length, hg2]
  · show ∀ batch ∈ iterLoop u bp (List.replicate u.n_classes 0) u.n_batches, _
    intro batch hb
    have hres := iterLoop_batches_le_nonCircular u bp u.n_batches
      (List.replicate u.n_classes 0)
      (by rw [hg3]; exact hcirc)
      (by intro x hx; rw [List.eq_of_mem_replicate hx])
      (by rw [hg1]; exact hq) hbp batch hb
    calc batch.length ≤ u.batch_size.toNat := hres
      _ = s.batch_size.toNat := by
        show (u.class_samples_per_batch.sum).toNat = _
        rw [hg1]; rfl

open WeightedFixedBatchSampler in
/-- Witness for the amended C3 at the counterexample configuration: one class
with pool `[0, 1]`, quota 3, non-circular, no shuffle — one batch is emitted
and its length (2) is at most the quota sum (3). -/
theorem nonCircular_truncated_batches_witness :
    ((⟨[3], [[0, 1]], 1, false, false⟩ :
        WeightedFixedBatchSampler).circular_list = false) ∧
    ((⟨[3], [[0, 1]], 1, false, false⟩ :
        WeightedFixedBatchSampler).shuffle = false) ∧
    ((iterPass (⟨[3], [[0, 1]], 1, false, false⟩ :
        WeightedFixedBatchSampler) id id).1).length = 1 ∧
    ∀ batch ∈ (iterPass (⟨[3], [[0, 1]], 1, false, false⟩ :
        WeightedFixedBatchSampler) id id).1,
      batch.length ≤ 3 :=
  have h := nonCircular_truncated_batches
    (⟨[3], [[0, 1]], 1, false, false⟩ : WeightedFixedBatchSampler) id id rfl rfl
    (by decide) (fun _ => rfl)
  ⟨rfl, rfl, h.1, h.2⟩

open WeightedFixedBatchSampler in
/-- C7 counterexample.  When a shuffle policy IS configured (as
`BalancedDataLoader` does with `shuffle=True`), iterating shuffles each
`CircularList` in place; since `CircularList` aliases the caller's list, the
caller-supplied partition is mutated: starting from the partition `[[0, 1]]`
and a pool permutation that reverses, after one pass the partition held by the
sampler (the caller's own lists) is `[[1, 0]] ≠ [[0, 1]]`. -/
theorem shuffle_mutates_partition_counterexample :
    ((⟨[1], [[0, 1]], 1, true, true⟩ : WeightedFixedBatchSampler).shuffle = true) ∧
    (iterPass (⟨[1], [[0, 1]], 1, true, true⟩ :
        WeightedFixedBatchSampler) List.reverse id).2.class_idxs = [[1, 0]] ∧
    ([[1, 0]] : List (List ℕ)) ≠ [[0, 1]] := by
  refine ⟨rfl, by decide, by decide⟩

open WeightedFixedBatchSampler in
/-- C7 amended.  Samplers produced by the factory never enable shuffling
(`SamplerFactory.fixed` leaves the default `shuffle=False`), and for them the
caller-supplied class partition is left unchanged by any sequence of
iteration passes and length queries; with shuffle configured the partition IS
mutated in place (see the counterexample). -/
theorem factoryFixed_partition_unchanged (class_idxs : List (List ℕ))
    (batch_size n_batches : ℕ) (alpha : ℚ)
    (perms : List ((List ℕ → List ℕ) × (List ℕ → List ℕ))) :
    (factoryFixed class_idxs batch_size n_batches alpha).shuffle = false ∧
    (runPasses (factoryFixed class_idxs batch_size n_batches alpha) perms).class_idxs
      = class_idxs ∧
    sampLen (runPasses (factoryFixed class_idxs batch_size n_batches alpha) perms)
      = n_batches := by
  have hrun : ∀ (t : WeightedFixedBatchSampler)
      (ps : List ((List ℕ → List ℕ) × (List ℕ → List ℕ))),
      t.shuffle = false → runPasses t ps = t := by
    intro t ps
    induction ps generalizing t with
    | nil => intro _; rfl
    | cons pr prs ih =>
        intro hsh
        show runPasses (iterPass t pr.1 pr.2).2 prs = t
        rw [iterPass_state_of_not_shuffle t pr.1 pr.2 hsh]
        exact ih t hsh
  rw [hrun _ _ rfl]
  exact ⟨rfl, rfl, rfl⟩

open WeightedFixedBatchSampler in
/-- C9.  The convenience data-loader wrapper gives every class the same quota
`round(batch_size / n_labels)` regardless of class sizes, so every batch it
drives has length `n_labels * round(batch_size / n_labels)`; for 3 labels and
requested batch size 4 this is 3, which differs from 4. -/
theorem balancedLoader_uniform_quota (labels_idxs : List (List ℕ)) (batch_size : ℕ)
    (pp bp : List ℕ → List ℕ) (_hne : labels_idxs ≠ [])
    (hbp : ∀ l : List ℕ, (bp l).length = l.length) :
    (balancedLoaderSampler labels_idxs batch_size).class_samples_per_batch
        = List.replicate labels_idxs.length
            (npRound ((batch_size : ℚ) / (labels_idxs.length : ℚ)))
    ∧ (∀ batch ∈ (iterPass (balancedLoaderSampler labels_idxs batch_size) pp bp).1,
        batch.length = labels_idxs.length
          * (npRound ((batch_size : ℚ) / (labels_idxs.length : ℚ))).toNat)
    ∧ (balancedLoaderSampler [[0], [1], [2]] 4).batch_size = 3
    ∧ (3 : ℤ) ≠ 4 := by
  set r := npRound ((batch_size : ℚ) / (labels_idxs.length : ℚ)) with hr
  have hrnn : 0 ≤ r := by
    rw [hr]
    exact npRound_nonneg _ (by positivity)
  refine ⟨rfl, ?_, ?_, by decide⟩
  · intro batch hb
    set s := balancedLoaderSampler labels_idxs batch_size with hs
    obtain ⟨hg1, _hg2, hg3, _hg4, hg5⟩ := iterPass_state_fields s pp bp
    set u := (iterPass s pp bp).2 with hu
    have hmem : ∀ q ∈ s.class_samples_per_batch, 0 ≤ q := by
      intro q hq
      have : q = r := List.eq_of_mem_replicate hq
      rw [this]
      exact hrnn
    have hres := iterLoop_batches_length_circular u bp u.n_batches
      (List.replicate u.n_classes 0)
      (by rw [hg3]; rfl)
      (by rw [hg1, hg5]; simp [hs, balancedLoaderSampler])
      (by rw [List.length_replicate]; rfl)
      (by rw [hg1]; exact hmem) hbp batch hb
    rw [hres]
    show (u.class_samples_per_batch.sum).toNat = _
    rw [hg1]
    show ((List.replicate labels_idxs.length r).sum).toNat = _
    obtain ⟨k, hk⟩ : ∃ k : ℕ, r = (k : ℤ) := ⟨r.toNat, (Int.toNat_of_nonneg hrnn).symm⟩
    rw [hk, List.sum_replicate, nsmul_eq_mul, ← Nat.cast_mul, Int.toNat_natCast,
      Int.toNat_natCast]
  · have h1 : npRound ((4 : ℚ) / ((([[0], [1], [2]] : List (List ℕ)).length : ℕ) : ℚ))
        = 1 := by
      norm_num [npRound]
    show (List.replicate ([[0], [1], [2]] : List (List ℕ)).length
        (npRound ((4 : ℚ) / ((([[0], [1], [2]] : List (List ℕ)).length : ℕ) : ℚ)))).sum = 3
    rw [h1]
    decide

open WeightedFixedBatchSampler in
/-- Witness for C9: with 3 singleton classes and requested batch size 4, the
driven batch length is 3, not 4. -/
theorem balancedLoader_uniform_quota_witness :
    ([[0], [1], [2]] : List (List ℕ)) ≠ [] ∧
    (balancedLoaderSampler [[0], [1], [2]] 4).batch_size = 3 ∧ (3 : ℤ) ≠ 4 :=
  have h := balancedLoader_uniform_quota [[0], [1], [2]] 4 id id (by decide)
    (fun _ => rfl)
  ⟨by decide, h.2.2.1, h.2.2.2⟩

end PBSampler
